import Mathlib

/-!
Verification development for dump2png (src/dump2png.c).

The byte-stream-to-pixel-stream transducer of dump2png is embedded
shallowly: the palette mapping functions (`map_hues`, `map_fhues`,
`map_hues6`, `map_color16`, `map_color32`, `c2v_binary`, `c2v_english`,
`c2v_x86`, `map_x86`), the per-sample decoder that is the body of the
zoom loop in `doimage` (`decodeSample`), the zoom loop itself
(`zoomRun`, `rawPixel`, `assemblePixel`), the per-row pixel loop
(`rowGo`), the automatic height computation of `main` (`autoHeight`),
and the command-line validation path of `main` (`atopal`, `cliChecks`,
`cliMain`).

Machine integers are modelled as `Nat`.  Every store into an
`unsigned char` (the `rgb[3]` scratch array and the `png_byte` row
buffer) is modelled by reduction modulo 256 (`pix8`); every load from
the `unsigned char *` input buffer is modelled by `byteAt`, which also
reduces modulo 256 because the C object holding the value has type
`unsigned char`.
-/

namespace Dump2png

/-- The `palette_t` enumeration of dump2png.c. -/
inductive Palette where
  | GRAY
  | GRAY16B
  | GRAY32B
  | GRAY16L
  | GRAY32L
  | HUES
  | HUES6
  | FHUES
  | COLOR
  | COLOR16
  | COLOR32
  | RGB
  | DVI
  | X86
deriving DecidableEq, Repr

/-- `pal2chrs`: number of input bytes consumed per sample for a palette. -/
def pal2chrs : Palette → Nat
  | .RGB => 3
  | .GRAY16B => 2
  | .GRAY16L => 2
  | .COLOR16 => 2
  | .GRAY32B => 4
  | .GRAY32L => 4
  | .COLOR32 => 4
  | _ => 1

/-- One RGB pixel: the three 8-bit channels. -/
structure Pix where
  r : Nat
  g : Nat
  b : Nat
deriving DecidableEq, Repr

/-- Building a pixel through the `unsigned char` stores into `rgb[3]` /
`png_byte`: each channel is reduced modulo 256 by the C conversion. -/
def pix8 (r g b : Nat) : Pix := ⟨r % 256, g % 256, b % 256⟩

/-- A load `inbuf[i]` from the input buffer (`unsigned char *`): the value
held by an `unsigned char` object is always in `[0, 256)`. -/
def byteAt (buf : List Nat) (i : Nat) : Nat := buf.getD i 0 % 256

/-- `map_hues`: value scaled by 3, three contiguous bands (red, green, blue). -/
def map_hues (val : Nat) : Pix :=
  let v := val % 256 * 3
  if v < 256 then pix8 v 0 0
  else if v < 512 then pix8 0 (v % 256) 0
  else pix8 0 0 (v % 256)

/-- `map_fhues`: value scaled by 6, six full-hue bands. -/
def map_fhues (val : Nat) : Pix :=
  let v := val % 256 * 6
  if v < 256 then pix8 v 0 0
  else if v < 256 * 2 then pix8 255 (v % 256) (v % 256)
  else if v < 256 * 3 then pix8 0 (v % 256) 0
  else if v < 256 * 4 then pix8 (v % 256) 255 (v % 256)
  else if v < 256 * 5 then pix8 0 0 (v % 256)
  else pix8 (v % 256) (v % 256) 255

/-- `map_hues6`: value scaled by 6, six bands (r, g, b, c, m, y). -/
def map_hues6 (val : Nat) : Pix :=
  let v := val % 256 * 6
  if v < 256 then pix8 v 0 0
  else if v < 256 * 2 then pix8 0 (v % 256) 0
  else if v < 256 * 3 then pix8 0 0 (v % 256)
  else if v < 256 * 4 then pix8 0 (v % 256) (v % 256)
  else if v < 256 * 5 then pix8 (v % 256) 0 (v % 256)
  else pix8 (v % 256) (v % 256) 0

/-- `map_color16`: bit-slices a 16-bit value (the parameter has type
`unsigned short`, hence the reduction modulo 2^16). -/
def map_color16 (val : Nat) : Pix :=
  let v := val % 65536
  pix8 ((v &&& 0xfc00) >>> 8) ((v &&& 0x03c0) >>> 2) ((v &&& 0x001f) <<< 3)

/-- `map_color32`: bit-slices a 32-bit value. -/
def map_color32 (val : Nat) : Pix :=
  pix8 ((val &&& 0xff000000) >>> 24) ((val &&& 0x001fe000) >>> 13)
    ((val &&& 0x000001fe) >>> 1)

/-- `c2v_binary`: indicator values for the small integers 1, 2, 3. -/
def c2v_binary (c : Nat) : Nat :=
  let b := c % 256
  if b = 0x01 then 0xff else if b = 0x02 then 0xcf else if b = 0x03 then 0xaf else 0

/-- `c2v_english`: indicator values for 'e', 't', 'a'.  The C parameter has
type plain `char` (signed on the reference platform), so byte values at or
above 128 are negative there and match none of the cases; the comparison is
made on the signed reinterpretation. -/
def c2v_english (c : Nat) : Nat :=
  let sc : Int := if c % 256 < 128 then (c % 256 : Int) else (c % 256 : Int) - 256
  if sc = 0x65 then 0xff else if sc = 0x74 then 0xcf else if sc = 0x61 then 0xaf else 0

/-- `c2v_x86`: indicator values for the opcode bytes 0x8b (movl),
0xe8 (call), 0x85 (testl). -/
def c2v_x86 (c : Nat) : Nat :=
  let b := c % 256
  if b = 0x8b then 0xff else if b = 0xe8 then 0xcf else if b = 0x85 then 0xaf else 0

/-- `map_x86`: the three indicator channels, with grayscale fallback when
all three are zero. -/
def map_x86 (c : Nat) : Pix :=
  let b := c % 256
  let r := c2v_x86 b
  let g := c2v_english b
  let bl := c2v_binary b
  if r + g + bl = 0 then pix8 b b b else pix8 r g bl

/-- One iteration of the zoom loop body of `doimage` (the `switch (pal)`):
decodes one sample at input-buffer cursor `xx` and returns the sample's
color together with the value of `xx` after the case's own increments
(the loop header's `xx++` is NOT included here; `zoomRun` adds it).
`last` is the `last` variable of `doimage` (used only by the DVI case). -/
def decodeSample (pal : Palette) (buf : List Nat) (xx last : Nat) : Pix × Nat :=
  match pal with
  | .GRAY => (pix8 (byteAt buf xx) (byteAt buf xx) (byteAt buf xx), xx)
  | .GRAY16B => (pix8 (byteAt buf xx) (byteAt buf xx) (byteAt buf xx), xx + 1)
  | .GRAY32B => (pix8 (byteAt buf xx) (byteAt buf xx) (byteAt buf xx), xx + 3)
  | .GRAY16L =>
      (pix8 (byteAt buf (xx + 1)) (byteAt buf (xx + 1)) (byteAt buf (xx + 1)), xx + 1)
  | .GRAY32L =>
      (pix8 (byteAt buf (xx + 3)) (byteAt buf (xx + 3)) (byteAt buf (xx + 3)), xx + 3)
  | .HUES => (map_hues (byteAt buf xx), xx)
  | .HUES6 => (map_hues6 (byteAt buf xx), xx)
  | .FHUES => (map_fhues (byteAt buf xx), xx)
  | .COLOR =>
      (pix8 (byteAt buf xx &&& 0xe0) ((byteAt buf xx &&& 0x1c) <<< 3)
        ((byteAt buf xx &&& 0x03) <<< 6), xx)
  | .COLOR16 =>
      (map_color16 (byteAt buf xx + (byteAt buf (xx + 1) <<< 8)), xx + 1)
  | .COLOR32 =>
      (map_color32 (byteAt buf xx + (byteAt buf (xx + 1) <<< 8) +
        (byteAt buf (xx + 2) <<< 16) + (byteAt buf (xx + 3) <<< 24)), xx + 3)
  | .RGB => (pix8 (byteAt buf xx) (byteAt buf (xx + 1)) (byteAt buf (xx + 2)), xx + 2)
  | .DVI =>
      (pix8 (((byteAt buf xx : Int) - (last : Int)).natAbs) (byteAt buf xx)
        ((byteAt buf xx + last) / 2), xx)
  | .X86 => (map_x86 (byteAt buf xx), xx)

/-- The zoom loop `for (z = 0; z < zoom; z++, xx++)` of `doimage`:
runs `n` iterations starting at cursor `xx`, returning the per-channel
sums accumulated into `sum[3]`, the color decoded by the final iteration
(the contents of `rgb[3]` after the loop), and the final cursor.
The C code accumulates the sums only when `zoom > 1`; accumulating them
unconditionally is observationally identical because they are read only
in that case. -/
def zoomRun (pal : Palette) (buf : List Nat) (last : Nat) :
    Nat → Nat → (Nat × Nat × Nat) × Pix × Nat
  | 0, xx => ((0, 0, 0), ⟨0, 0, 0⟩, xx)
  | n + 1, xx =>
    let d := decodeSample pal buf xx last
    let rest := zoomRun pal buf last n (d.2 + 1)
    ((d.1.r + rest.1.1, d.1.g + rest.1.2.1, d.1.b + rest.1.2.2),
     (if n = 0 then d.1 else rest.2.1), rest.2.2)

/-- The pixel value before the optional masking step: for `zoom > 1` the
channel sums divided by `zoom` (stored back into the `unsigned char`
array `rgb[3]`, hence `pix8`), otherwise the single decoded sample. -/
def rawPixel (pal : Palette) (buf : List Nat) (zoom last xx : Nat) : Pix :=
  let zr := zoomRun pal buf last zoom xx
  if zoom > 1 then pix8 (zr.1.1 / zoom) (zr.1.2.1 / zoom) (zr.1.2.2 / zoom)
  else zr.2.1

/-- The masking step `rgb[i] & BYTE_MASK` with `BYTE_MASK = 0xfe`. -/
def maskPix (p : Pix) : Pix := ⟨p.r &&& 0xfe, p.g &&& 0xfe, p.b &&& 0xfe⟩

/-- One output pixel of `doimage` (zoom loop, zoom averaging, optional
masking) together with the cursor position after the pixel. -/
def assemblePixel (pal : Palette) (buf : List Nat) (zoom last : Nat)
    (mask : Bool) (xx : Nat) : Pix × Nat :=
  ((if mask then maskPix (rawPixel pal buf zoom last xx)
    else rawPixel pal buf zoom last xx),
   (zoomRun pal buf last zoom xx).2.2)

/-- The per-row pixel loop `for (x = 0, xx = 0; x < width; x++)` of
`doimage`, processing `fuel` remaining pixels starting at destination
index `x` with input cursor `xx` and history byte `last`.  `inCount` is
`in`, the number of bytes `read` returned for this row.  When
`xx + chrs > in` the pixel is written as black and the loop `continue`s
without touching `xx` or `last`; otherwise the pixel is assembled and
`last = inbuf[x]` (the source indexes with `x`, not `xx`).  Returns the
row's pixels, the final cursor and the final `last`. -/
def rowGo (pal : Palette) (buf : List Nat) (inCount zoom : Nat) (mask : Bool) :
    Nat → Nat → Nat → Nat → List Pix × Nat × Nat
  | 0, _x, xx, last => ([], xx, last)
  | fuel + 1, x, xx, last =>
    if xx + pal2chrs pal > inCount then
      let rest := rowGo pal buf inCount zoom mask fuel (x + 1) xx last
      (⟨0, 0, 0⟩ :: rest.1, rest.2)
    else
      let p := assemblePixel pal buf zoom last mask xx
      let rest := rowGo pal buf inCount zoom mask fuel (x + 1) p.2 (byteAt buf x)
      (p.1 :: rest.1, rest.2)

/-- A full row of `doimage`: `width` pixels starting from cursor 0 with
history byte `last0` (across rows the history carries over; within the
very first row of a run it is the uninitialized `unsigned char` value). -/
def rowPixels (pal : Palette) (buf : List Nat) (inCount zoom : Nat)
    (mask : Bool) (width last0 : Nat) : List Pix :=
  (rowGo pal buf inCount zoom mask width 0 0 last0).1

/-- Ceiling division on naturals: `cdiv a b = ⌈a / b⌉` for `b > 0`. -/
def cdiv (a b : Nat) : Nat := (a + b - 1) / b

/-- Round a rational to the nearest integer, ties to even: the IEEE 754
default rounding direction, applied to the scaled significand. -/
def rndNE (x : ℚ) : ℤ :=
  let n := ⌊x⌋
  if x - n < 1 / 2 then n
  else if 1 / 2 < x - n then n + 1
  else if n % 2 = 0 then n else n + 1

/-- Round a nonnegative rational to IEEE single precision (binary32):
the value is scaled by `2^(23 - e)` (with `e = ⌊log2 x⌋`) so that its
binade maps onto the integer significand range `[2^23, 2^24)`, rounded
to the nearest integer with ties to even, and scaled back.  Exponent
overflow and underflow are far outside the magnitudes reachable in this
program and are not modelled. -/
def fround (x : ℚ) : ℚ :=
  if x ≤ 0 then 0
  else
    let e : ℤ := Int.log 2 x
    (rndNE (x * 2 ^ (23 - e)) : ℚ) * 2 ^ (e - 23)

/-- The C conversion `(float)n` of a nonnegative integer value (used for
the cast of the `st_size` quotient and the usual-arithmetic conversion
of `width`): exact below 2^24, rounded to 24 significant bits above. -/
def floatOfNat (n : Nat) : ℚ := fround (n : ℚ)

/-- IEEE single-precision division of two (already rounded) operands:
the correctly rounded exact quotient. -/
def fdiv (a b : ℚ) : ℚ := fround (a / b)

/-- The `fullheight` computation of `main` (line 185):
`ceil((float)(filestat.st_size / (zoom * skip * chrs)) / width)`.
The inner division is C integer division on integer operands; the
quotient is cast to single-precision `float`, `width` is converted to
`float` by the usual arithmetic conversions, the division is performed
in single precision, and `ceil` (exact: the `float` promotes to
`double` losslessly and the result is an integer-valued double) is
converted back to `int`. -/
def fullheightOf (S Z K C W : Nat) : Nat :=
  (⌈fdiv (floatOfNat (S / (Z * K * C))) (floatOfNat W)⌉).toNat

/-- The height-selection logic of `main` (lines 184-197): given the file
size `S`, the requested maximum height `hmax`, zoom `Z`, skip `K`,
bytes-per-pixel `C`, width `W` and the `-H` flag (`hscale`), returns the
height used for the render and, when truncating, the pair
(bytes shown, total bytes) reported by the truncation notice
(`width * height * zoom * skip * chrs` against `st_size`). -/
def autoHeight (S hmax Z K C W : Nat) (hscale : Bool) : Nat × Option (Nat × Nat) :=
  if fullheightOf S Z K C W > hmax then (hmax, some (W * hmax * Z * K * C, S))
  else (if hscale then fullheightOf S Z K C W else hmax, none)

/-- Modelled from the spec (for the refinement comparison of claim C1):
the claim's stated height, the EXACT rational ceiling of the full
quotient `S / (Z*K*C) / W`, which equals `⌈S / (Z*K*C*W)⌉`. -/
def claimedHeight (S Z K C W : Nat) : Nat := cdiv S (Z * K * C * W)

/-- `atopal`: palette-name parsing; `none` models the
`exit(3)` taken on an invalid name. -/
def atopal (s : String) : Option Palette :=
  if s = "gray" then some .GRAY
  else if s = "gray16b" then some .GRAY16B
  else if s = "gray32b" then some .GRAY32B
  else if s = "gray16l" then some .GRAY16L
  else if s = "gray32l" then some .GRAY32L
  else if s = "hues" then some .HUES
  else if s = "hues6" then some .HUES6
  else if s = "fhues" then some .FHUES
  else if s = "color" then some .COLOR
  else if s = "color16" then some .COLOR16
  else if s = "color32" then some .COLOR32
  else if s = "rgb" then some .RGB
  else if s = "dvi" then some .DVI
  else if s = "x86" then some .X86
  else none

/-- Outcome of the option-validation part of `main`, before any access to
the input file (`stat` / `open` happen only after these checks). -/
inductive CliOutcome where
  | exitUsage (code : Nat)
  | exitPal (code : Nat)
  | render (pal : Palette) (width height skip zoom : Int)
deriving DecidableEq, Repr

/-- The validity checks of `main` after option parsing, in source order:
`width == 0 || height == 0 || skip == 0 || zoom == 0` calls `usage(0)`
(which calls `exit(1)`), then `optind + 1 != argc` (modelled by
`argcOk = false`) also calls `usage(0)`; only then does `main` reach the
`stat` of the input file (modelled by `render`). -/
def cliChecks (p : Palette) (width height skip zoom : Int) (argcOk : Bool) : CliOutcome :=
  if width == 0 || height == 0 || skip == 0 || zoom == 0 then .exitUsage 1
  else if !argcOk then .exitUsage 1
  else .render p width height skip zoom

/-- The option-validation path of `main`: `palArg` is the `-p` argument
when given (`atopal` is called as soon as `-p` is parsed, and an invalid
name calls `exit(3)` there, before the numeric checks); the numeric
options come from `atoi`, so they are arbitrary `Int`s. -/
def cliMain (palArg : Option String) (width height skip zoom : Int)
    (argcOk : Bool) : CliOutcome :=
  match palArg with
  | none => cliChecks .X86 width height skip zoom argcOk
  | some s =>
    match atopal s with
    | none => .exitPal 3
    | some p => cliChecks p width height skip zoom argcOk

/-- Whether an outcome exits before reaching the input file. -/
def isExit : CliOutcome → Bool
  | .exitUsage _ => true
  | .exitPal _ => true
  | .render _ _ _ _ _ => false

/-- The process exit code of an early-exit outcome. -/
def exitCodeOf : CliOutcome → Nat
  | .exitUsage c => c
  | .exitPal c => c
  | .render _ _ _ _ _ => 0

/-- Modelled from the spec (for the refinement comparison of claim C7):
the dvi sample color the claim mandates at byte index `i` of a row
chunk, where the previous byte is the byte consumed immediately before
the current one (index `i - 1`), taken as 0 before the very first
sample. -/
def dviClaimSample (bytes : List Nat) (i : Nat) : Pix :=
  let cur := byteAt bytes i
  let prev := if i = 0 then 0 else byteAt bytes (i - 1)
  pix8 (((cur : Int) - (prev : Int)).natAbs) cur ((cur + prev) / 2)

/-- Modelled from the spec (claim C7): the dvi output pixel `x` the claim
mandates, zoom-averaging the claimed per-sample colors of the pixel's
window. -/
def dviClaimPixel (bytes : List Nat) (zoom x : Nat) : Pix :=
  if zoom > 1 then
    let samples := (List.range zoom).map (fun z => dviClaimSample bytes (x * zoom + z))
    pix8 ((samples.map Pix.r).sum / zoom) ((samples.map Pix.g).sum / zoom)
      ((samples.map Pix.b).sum / zoom)
  else dviClaimSample bytes (x * zoom)

theorem pal2chrs_pos (pal : Palette) : 0 < pal2chrs pal := by
  cases pal <;> simp [pal2chrs]

theorem pix8_lt (a b c : Nat) :
    (pix8 a b c).r < 256 ∧ (pix8 a b c).g < 256 ∧ (pix8 a b c).b < 256 := by
  refine ⟨?_, ?_, ?_⟩ <;> exact Nat.mod_lt _ (by norm_num)

theorem map_hues_lt (v : Nat) :
    (map_hues v).r < 256 ∧ (map_hues v).g < 256 ∧ (map_hues v).b < 256 := by
  unfold map_hues
  dsimp only
  split_ifs <;> exact pix8_lt ..

theorem map_fhues_lt (v : Nat) :
    (map_fhues v).r < 256 ∧ (map_fhues v).g < 256 ∧ (map_fhues v).b < 256 := by
  unfold map_fhues
  dsimp only
  split_ifs <;> exact pix8_lt ..

theorem map_hues6_lt (v : Nat) :
    (map_hues6 v).r < 256 ∧ (map_hues6 v).g < 256 ∧ (map_hues6 v).b < 256 := by
  unfold map_hues6
  dsimp only
  split_ifs <;> exact pix8_lt ..

theorem map_x86_lt (v : Nat) :
    (map_x86 v).r < 256 ∧ (map_x86 v).g < 256 ∧ (map_x86 v).b < 256 := by
  unfold map_x86
  dsimp only
  split_ifs <;> exact pix8_lt ..

/-- Every channel of every decoded sample is an 8-bit value. -/
theorem decodeSample_lt (pal : Palette) (buf : List Nat) (xx last : Nat) :
    (decodeSample pal buf xx last).1.r < 256 ∧
    (decodeSample pal buf xx last).1.g < 256 ∧
    (decodeSample pal buf xx last).1.b < 256 := by
  cases pal <;>
    simp only [decodeSample, map_color16, map_color32] <;>
    first
      | exact pix8_lt ..
      | exact map_hues_lt _
      | exact map_hues6_lt _
      | exact map_fhues_lt _
      | exact map_x86_lt _

/-- After one zoom-loop iteration (case increments plus the loop header's
`xx++`) the cursor has advanced by exactly `pal2chrs pal`. -/
theorem decodeSample_advance (pal : Palette) (buf : List Nat) (xx last : Nat) :
    (decodeSample pal buf xx last).2 + 1 = xx + pal2chrs pal := by
  cases pal <;> simp [decodeSample, pal2chrs]

/-- The cursor after the whole zoom loop. -/
theorem zoomRun_cursor (pal : Palette) (buf : List Nat) (last : Nat) :
    ∀ n xx, (zoomRun pal buf last n xx).2.2 = xx + n * pal2chrs pal := by
  intro n
  induction n with
  | zero => intro xx; simp [zoomRun]
  | succ n ih =>
    intro xx
    simp only [zoomRun]
    rw [ih, decodeSample_advance]
    ring

/-- Clearing the low bit with `BYTE_MASK = 0xfe` yields an even value. -/
theorem land254_even (v : Nat) : (v &&& 254) % 2 = 0 := by
  have h : (v &&& 254).testBit 0 = false := by
    rw [Nat.testBit_land]
    simp [Nat.testBit]
  rw [Nat.testBit_zero] at h
  simp only [decide_eq_false_iff_not] at h
  omega

theorem rndNE_intCast (n : ℤ) : rndNE (n : ℚ) = n := by
  unfold rndNE
  simp

/-- Rounding to the nearest integer moves the value by at most 1/2
(for any tie direction). -/
theorem rndNE_close (x : ℚ) : |(rndNE x : ℚ) - x| ≤ 1 / 2 := by
  have h1 := Int.floor_le x
  have h2 := Int.lt_floor_add_one x
  unfold rndNE
  dsimp only
  split_ifs with ha hb hc <;> rw [abs_le] <;> push_cast <;> constructor <;> linarith

/-- Rounding to nearest never exceeds the ceiling. -/
theorem rndNE_le_ceil (x : ℚ) : rndNE x ≤ ⌈x⌉ := by
  unfold rndNE
  dsimp only
  split_ifs with ha hb hc
  · exact Int.floor_le_ceil x
  · have hlt : (⌊x⌋ : ℚ) < x := by linarith
    have h := Int.lt_ceil.2 hlt
    omega
  · exact Int.floor_le_ceil x
  · have hlt : (⌊x⌋ : ℚ) < x := by linarith
    have h := Int.lt_ceil.2 hlt
    omega

/-- `Int.log 2` is bounded by an exponent bound on the value. -/
theorem int_log_le (x : ℚ) (hx : 0 < x) (m : ℤ) (h : x < 2 ^ (m + 1)) :
    Int.log 2 x ≤ m := by
  by_contra hgt
  push_neg at hgt
  have hself : (2 : ℚ) ^ Int.log 2 x ≤ x := by
    have := Int.zpow_log_le_self (b := 2) (r := x) (by norm_num) hx
    simpa using this
  have hmono : (2 : ℚ) ^ (m + 1) ≤ (2 : ℚ) ^ Int.log 2 x :=
    zpow_le_zpow_right₀ one_le_two (by omega)
  linarith

/-- The binary32 conversion is exact on integers below 2^24. -/
theorem fround_natCast (n : Nat) (h : n < 2 ^ 24) : fround (n : ℚ) = n := by
  unfold fround
  rcases Nat.eq_zero_or_pos n with rfl | hn
  · simp
  have hnq : (0 : ℚ) < n := by exact_mod_cast hn
  rw [if_neg (not_le.2 hnq)]
  dsimp only
  set e : ℤ := Int.log 2 ((n : ℚ)) with he
  have hlt24 : (n : ℚ) < 2 ^ ((23 : ℤ) + 1) := by
    have : (n : ℚ) < ((2 ^ 24 : Nat) : ℚ) := by exact_mod_cast h
    calc (n : ℚ) < ((2 ^ 24 : Nat) : ℚ) := this
      _ = 2 ^ ((23 : ℤ) + 1) := by push_cast; norm_num
  have he23 : e ≤ 23 := int_log_le _ hnq 23 hlt24
  set k : Nat := (23 - e).toNat with hkdef
  have hk : (23 : ℤ) - e = (k : ℤ) := by omega
  have hint : (n : ℚ) * 2 ^ ((23 : ℤ) - e) = (((n : ℤ) * 2 ^ k : ℤ) : ℚ) := by
    rw [hk, zpow_natCast]
    push_cast
    ring
  rw [hint, rndNE_intCast]
  have hek : e - 23 = -(k : ℤ) := by omega
  rw [hek, zpow_neg, zpow_natCast]
  push_cast
  rw [mul_assoc, mul_inv_cancel₀ (by positivity), mul_one]

/-- Ceiling of the correctly rounded single-precision quotient of exact
integer operands agrees with exact ceiling division while the dividend
is below 2^24: the quotient's fractional part (at least `1/b`) always
exceeds the rounding error (less than `1/b` because `b * 2^e ≤ a`),
and integers up to 2^24 are representable, so rounding never crosses an
integer boundary in either direction. -/
theorem ceil_fround_div (a b : Nat) (ha : a < 2 ^ 24) (hb : 0 < b) :
    (⌈fround ((a : ℚ) / b)⌉).toNat = cdiv a b := by
  rcases Nat.eq_zero_or_pos a with rfl | hapos
  · have hz : ((0 : Nat) : ℚ) / b = 0 := by simp
    rw [hz]
    have : fround 0 = 0 := by unfold fround; rw [if_pos le_rfl]
    rw [this]
    unfold cdiv
    rw [Nat.div_eq_of_lt (by omega)]
    simp
  have hbq : (0 : ℚ) < b := by exact_mod_cast hb
  have hx : (0 : ℚ) < (a : ℚ) / b := div_pos (by exact_mod_cast hapos) hbq
  by_cases hdvd : b ∣ a
  · obtain ⟨m, rfl⟩ := hdvd
    have hm : 0 < m := by
      rcases Nat.eq_zero_or_pos m with rfl | hm
      · omega
      · exact hm
    have hxm : (((b * m : Nat)) : ℚ) / (b : ℚ) = (m : ℚ) := by
      push_cast
      rw [mul_comm]
      exact mul_div_cancel_right₀ _ (ne_of_gt hbq)
    rw [hxm, fround_natCast m (lt_of_le_of_lt (Nat.le_mul_of_pos_left _ hb) ha),
      Int.ceil_natCast]
    have h1 : b * m + b - 1 = b * m + (b - 1) := by omega
    unfold cdiv
    rw [h1, Nat.mul_add_div hb, Nat.div_eq_of_lt (by omega)]
    omega
  · set n := a / b with hn
    have hr1 : 1 ≤ a % b := by
      rcases Nat.eq_zero_or_pos (a % b) with h0 | h1
      · exact absurd (Nat.dvd_of_mod_eq_zero h0) hdvd
      · exact h1
    have hrb : a % b < b := Nat.mod_lt _ hb
    have hab : a = b * n + a % b := (Nat.div_add_mod a b).symm
    set x : ℚ := (a : ℚ) / b with hxdef
    have hfrac_lo : (n : ℚ) + 1 / b ≤ x := by
      have hnat : b * n + 1 ≤ a := by omega
      have hcast : ((b * n + 1 : Nat) : ℚ) ≤ (a : ℚ) := by exact_mod_cast hnat
      have heq : (n : ℚ) + 1 / b = ((b * n + 1 : Nat) : ℚ) / b := by
        push_cast
        field_simp
        ring
      rw [heq, hxdef, div_le_div_iff_of_pos_right hbq]
      exact hcast
    have hfrac_hi : x < (n : ℚ) + 1 := by
      have hnat : a < b * (n + 1) := by
        have : b * (n + 1) = b * n + b := by ring
        omega
      rw [hxdef, div_lt_iff₀ hbq]
      calc (a : ℚ) < ((b * (n + 1) : Nat) : ℚ) := by exact_mod_cast hnat
        _ = ((n : ℚ) + 1) * b := by push_cast; ring
    set e : ℤ := Int.log 2 x with hedef
    have hlow : (2 : ℚ) ^ e ≤ x := by
      have := Int.zpow_log_le_self (b := 2) (r := x) (by norm_num) hx
      simpa using this
    have hxa : x ≤ (a : ℚ) := by
      rw [hxdef]
      exact div_le_self (by positivity) (by exact_mod_cast hb)
    have ha24 : (a : ℚ) < 2 ^ ((23 : ℤ) + 1) := by
      have : (a : ℚ) < ((2 ^ 24 : Nat) : ℚ) := by exact_mod_cast ha
      calc (a : ℚ) < ((2 ^ 24 : Nat) : ℚ) := this
        _ = 2 ^ ((23 : ℤ) + 1) := by push_cast; norm_num
    have he23 : e ≤ 23 := int_log_le _ hx 23 (lt_of_le_of_lt hxa ha24)
    have hxpos' : ¬ x ≤ 0 := not_le.2 hx
    have hfr : fround x = (rndNE (x * 2 ^ ((23 : ℤ) - e)) : ℚ) * 2 ^ (e - 23) := by
      unfold fround
      rw [if_neg hxpos']
    set y : ℚ := x * 2 ^ ((23 : ℤ) - e) with hy
    have herr : |(rndNE y : ℚ) - y| ≤ 1 / 2 := rndNE_close y
    have hpow : (0 : ℚ) < (2 : ℚ) ^ (e - 23) := zpow_pos (by norm_num) _
    have hpow' : (0 : ℚ) < (2 : ℚ) ^ ((23 : ℤ) - e) := zpow_pos (by norm_num) _
    have hid : y * (2 : ℚ) ^ (e - 23) = x := by
      rw [hy, mul_assoc, ← zpow_add₀ (two_ne_zero : (2 : ℚ) ≠ 0)]
      norm_num
    have herr2 : |fround x - x| ≤ (2 : ℚ) ^ (e - 24) := by
      rw [hfr, ← hid, ← sub_mul, abs_mul, abs_of_pos hpow]
      have hsplit : (2 : ℚ) ^ (e - 24) = 1 / 2 * 2 ^ (e - 23) := by
        have hsum : e - 24 = (-1 : ℤ) + (e - 23) := by omega
        rw [hsum, zpow_add₀ (two_ne_zero : (2 : ℚ) ≠ 0)]
        norm_num
      rw [hsplit]
      exact mul_le_mul_of_nonneg_right herr (le_of_lt hpow)
    have hgap : (2 : ℚ) ^ (e - 24) < 1 / b := by
      have hbx : (b : ℚ) * x = a := by
        rw [hxdef]
        field_simp
      have h1 : (b : ℚ) * (2 : ℚ) ^ e ≤ (a : ℚ) := by
        calc (b : ℚ) * (2 : ℚ) ^ e ≤ (b : ℚ) * x :=
              mul_le_mul_of_nonneg_left hlow (by positivity)
          _ = a := hbx
      rw [lt_div_iff₀ hbq]
      have hrw : (2 : ℚ) ^ (e - 24) * b = (b : ℚ) * (2 : ℚ) ^ e / 2 ^ ((23 : ℤ) + 1) := by
        rw [zpow_sub₀ (two_ne_zero : (2 : ℚ) ≠ 0)]
        have h24 : (2 : ℚ) ^ (24 : ℤ) = 2 ^ ((23 : ℤ) + 1) := by norm_num
        rw [h24]
        ring
      rw [hrw, div_lt_one (by positivity)]
      exact lt_of_le_of_lt h1 ha24
    have hlo2 : (n : ℚ) < fround x := by
      have h1 := (abs_le.1 herr2).1
      linarith
    have hup2 : fround x ≤ (n : ℚ) + 1 := by
      set k : Nat := (23 - e).toNat with hkdef
      have hk : (23 : ℤ) - e = (k : ℤ) := by omega
      have hyle : y ≤ (((n + 1 : Nat) * 2 ^ k : ℤ) : ℚ) := by
        rw [hy]
        have : x * 2 ^ ((23 : ℤ) - e) ≤ ((n : ℚ) + 1) * 2 ^ ((23 : ℤ) - e) :=
          mul_le_mul_of_nonneg_right (le_of_lt hfrac_hi) (le_of_lt hpow')
        calc x * 2 ^ ((23 : ℤ) - e) ≤ ((n : ℚ) + 1) * 2 ^ ((23 : ℤ) - e) := this
          _ = (((n + 1 : Nat) * 2 ^ k : ℤ) : ℚ) := by
              rw [hk, zpow_natCast]
              push_cast
              ring
      have hceil : ⌈y⌉ ≤ ((n + 1 : Nat) * 2 ^ k : ℤ) := Int.ceil_le.2 hyle
      have h3 : rndNE y ≤ ((n + 1 : Nat) * 2 ^ k : ℤ) := le_trans (rndNE_le_ceil y) hceil
      rw [hfr]
      calc (rndNE y : ℚ) * 2 ^ (e - 23) ≤
            (((n + 1 : Nat) * 2 ^ k : ℤ) : ℚ) * 2 ^ (e - 23) :=
              mul_le_mul_of_nonneg_right (by exact_mod_cast h3) (le_of_lt hpow)
        _ = (n : ℚ) + 1 := by
            have hek : e - 23 = -(k : ℤ) := by omega
            rw [hek, zpow_neg, zpow_natCast]
            push_cast
            rw [mul_assoc, mul_inv_cancel₀ (by positivity), mul_one]
    have hcl : ⌈fround x⌉ = (n : ℤ) + 1 := by
      have hu : ⌈fround x⌉ ≤ (n : ℤ) + 1 := Int.ceil_le.2 (by push_cast; exact hup2)
      have hl : (n : ℤ) < ⌈fround x⌉ := Int.lt_ceil.2 hlo2
      omega
    rw [hcl]
    have hcd : cdiv a b = n + 1 := by
      unfold cdiv
      have h1 : a + b - 1 = b * n + (a % b + b - 1) := by omega
      have h2 : (a % b + b - 1) / b = 1 := Nat.div_eq_of_lt_le (by omega) (by omega)
      rw [h1, Nat.mul_add_div hb, h2]
    rw [hcd]
    omega

/-- On the range where the single-precision arithmetic is exact — the
integer quotient and the width both below 2^24 — the `fullheight`
computation reduces to the exact ceiling of the integer quotient over
the width. -/
theorem fullheightOf_exact (S Z K C W : Nat) (hq : S / (Z * K * C) < 2 ^ 24)
    (hW : 0 < W) (hW24 : W < 2 ^ 24) :
    fullheightOf S Z K C W = cdiv (S / (Z * K * C)) W := by
  unfold fullheightOf fdiv floatOfNat
  rw [fround_natCast _ hq, fround_natCast _ hW24]
  exact ceil_fround_div _ _ hq hW

/-- Claim C1, counterexample: for a 3-byte file with `zoom*skip*chrs = 2`
and `width = 1`, auto-height is enabled and nothing is clamped, yet the
rendered height is `ceil(floor(3/2)/1) = 1` while the exact rational
ceiling `ceil(3/2/1)` the claim states is 2: the inner division in
`main` is C integer division, so the height is NOT the exact rational
ceiling of the full quotient.  (All values here are far below 2^24, so
the float arithmetic is exact and contributes nothing.) -/
theorem c1_counterexample :
    autoHeight 3 10 1 1 2 1 true = (1, none) ∧
    claimedHeight 3 1 1 2 1 = 2 ∧ (1 : Nat) ≠ 2 := by
  have hfh : fullheightOf 3 1 1 2 1 = 1 := by
    rw [fullheightOf_exact 3 1 1 2 1 (by norm_num) (by norm_num) (by norm_num)]
    rfl
  refine ⟨?_, by decide, by decide⟩
  unfold autoHeight
  rw [hfh]
  norm_num

/-- Claim C1 (amended): on the range where the single-precision float
arithmetic of line 185 is exact — integer quotient
`file_size / (zoom*skip*chrs)` and width both below 2^24 — with
auto-height enabled and the computed height not exceeding the requested
maximum, the rendered height equals
`ceil(floor(file_size / (zoom*skip*chrs)) / width)`: the ceiling of the
C INTEGER quotient, not of the exact rational quotient; when the
computed height exceeds the maximum, the height is clamped to the
maximum and a truncation notice reporting
`width*height*zoom*skip*chrs` shown bytes versus `file_size` total
bytes is produced.  Outside that range the `(float)` cast rounds the
quotient to 24 significant bits (ties to even), as `fullheightOf`
models. -/
theorem c1_auto_height :
    ∀ (S hmax Z K C W : Nat) (hscale : Bool),
    S / (Z * K * C) < 2 ^ 24 → 0 < W → W < 2 ^ 24 →
    (cdiv (S / (Z * K * C)) W ≤ hmax →
      autoHeight S hmax Z K C W true = (cdiv (S / (Z * K * C)) W, none) ∧
      autoHeight S hmax Z K C W false = (hmax, none)) ∧
    (hmax < cdiv (S / (Z * K * C)) W →
      autoHeight S hmax Z K C W hscale = (hmax, some (W * hmax * Z * K * C, S))) := by
  intro S hmax Z K C W hscale hq hW hW24
  have hfh := fullheightOf_exact S Z K C W hq hW hW24
  constructor
  · intro h
    have hn : ¬ (fullheightOf S Z K C W > hmax) := by omega
    refine ⟨?_, ?_⟩ <;> unfold autoHeight <;> rw [if_neg hn] <;> simp [hfh]
  · intro h
    have hp : fullheightOf S Z K C W > hmax := by omega
    simp only [autoHeight, if_pos hp]

/-- Witness for `c1_auto_height` at a concrete truncating input:
a 5-byte file, width 1, maximum height 2, zoom = skip = chrs = 1. -/
theorem c1_auto_height_witness :
    autoHeight 5 2 1 1 1 1 true = (2, some (2, 5)) :=
  (c1_auto_height 5 2 1 1 1 1 true (by norm_num) (by norm_num) (by norm_num)).2
    (by decide)

/-- Claim C3: over all 256 byte values, the x86 palette maps the three
opcode bytes to distinct high values in the red channel, the three
English letters to distinct high values in the green channel, the three
small integers to distinct high values in the blue channel, and every
other byte to the grayscale triple (b, b, b). -/
theorem c3_x86_palette :
    ∀ b : Nat, b < 256 →
    map_x86 b =
      (if b = 0x8b then (⟨0xff, 0, 0⟩ : Pix)
       else if b = 0xe8 then ⟨0xcf, 0, 0⟩
       else if b = 0x85 then ⟨0xaf, 0, 0⟩
       else if b = 0x65 then ⟨0, 0xff, 0⟩
       else if b = 0x74 then ⟨0, 0xcf, 0⟩
       else if b = 0x61 then ⟨0, 0xaf, 0⟩
       else if b = 0x01 then ⟨0, 0, 0xff⟩
       else if b = 0x02 then ⟨0, 0, 0xcf⟩
       else if b = 0x03 then ⟨0, 0, 0xaf⟩
       else ⟨b, b, b⟩) := by
  set_option maxRecDepth 4096 in decide

/-- Witness for `c3_x86_palette` at the movl opcode byte 0x8b. -/
theorem c3_x86_palette_witness : map_x86 0x8b = ⟨0xff, 0, 0⟩ := by
  have h := c3_x86_palette 0x8b (by norm_num)
  simpa using h

/-- Claim C10: the three x86-palette indicator sets are pairwise
disjoint — for every byte at most one of the three `c2v` functions is
nonzero — and hence every x86-palette sample color is pure red, pure
green, pure blue, or an exact grayscale triple. -/
theorem c10_x86_disjoint :
    ∀ b : Nat, b < 256 →
    ((c2v_x86 b ≠ 0 → c2v_english b = 0 ∧ c2v_binary b = 0) ∧
     (c2v_english b ≠ 0 → c2v_x86 b = 0 ∧ c2v_binary b = 0) ∧
     (c2v_binary b ≠ 0 → c2v_x86 b = 0 ∧ c2v_english b = 0)) ∧
    (map_x86 b = ⟨c2v_x86 b, 0, 0⟩ ∨ map_x86 b = ⟨0, c2v_english b, 0⟩ ∨
     map_x86 b = ⟨0, 0, c2v_binary b⟩ ∨ map_x86 b = ⟨b, b, b⟩) := by
  set_option maxRecDepth 4096 in decide

/-- Witness for `c10_x86_disjoint` at the byte 'e' = 0x65. -/
theorem c10_x86_disjoint_witness :
    (c2v_english 0x65 ≠ 0 → c2v_x86 0x65 = 0 ∧ c2v_binary 0x65 = 0) ∧
    (map_x86 0x65 = ⟨c2v_x86 0x65, 0, 0⟩ ∨ map_x86 0x65 = ⟨0, c2v_english 0x65, 0⟩ ∨
     map_x86 0x65 = ⟨0, 0, c2v_binary 0x65⟩ ∨ map_x86 0x65 = ⟨0x65, 0x65, 0x65⟩) :=
  ⟨(c10_x86_disjoint 0x65 (by norm_num)).1.2.1, (c10_x86_disjoint 0x65 (by norm_num)).2⟩

/-- Claim C8, counterexample: a NEGATIVE width (-1) passes the validity
check of `main` — which compares against zero only — and the run
proceeds towards the render instead of exiting with a usage error. -/
theorem c8_counterexample :
    cliMain none (-1) 1024 1 1 true = .render .X86 (-1) 1024 1 1 ∧
    isExit (cliMain none (-1) 1024 1 1 true) = false := by decide

/-- Claim C8 (amended): for every invocation with an invalid palette
name, a ZERO (not negative: negative values pass the check) width,
height, skip factor, or zoom factor, or a wrong argument count, the
process exits with a non-zero code before performing any render (the
input file is first accessed only on the `render` path). -/
theorem c8_usage_errors :
    ∀ (palArg : Option String) (width height skip zoom : Int) (argcOk : Bool),
    ((∃ s, palArg = some s ∧ atopal s = none) ∨
      width = 0 ∨ height = 0 ∨ skip = 0 ∨ zoom = 0 ∨ argcOk = false) →
    isExit (cliMain palArg width height skip zoom argcOk) = true ∧
    exitCodeOf (cliMain palArg width height skip zoom argcOk) ≠ 0 := by
  intro palArg width height skip zoom argcOk h
  have hcheck : ∀ p : Palette,
      (width = 0 ∨ height = 0 ∨ skip = 0 ∨ zoom = 0 ∨ argcOk = false) →
      isExit (cliChecks p width height skip zoom argcOk) = true ∧
      exitCodeOf (cliChecks p width height skip zoom argcOk) ≠ 0 := by
    intro p hp
    unfold cliChecks
    split_ifs with h1 h2
    · simp [isExit, exitCodeOf]
    · simp [isExit, exitCodeOf]
    · exfalso
      simp only [Bool.or_eq_true, beq_iff_eq, Bool.not_eq_true'] at h1 h2
      rcases hp with h' | h' | h' | h' | h' <;> simp_all
  cases palArg with
  | none =>
    simp only [cliMain]
    apply hcheck
    rcases h with ⟨s, hs, _⟩ | h'
    · exact absurd hs (by simp)
    · exact h'
  | some s =>
    rcases hpal : atopal s with _ | p
    · simp [cliMain, hpal, isExit, exitCodeOf]
    · simp only [cliMain, hpal]
      apply hcheck
      rcases h with ⟨s', hs', hnone⟩ | h'
      · obtain rfl : s = s' := by injection hs'
        rw [hnone] at hpal
        exact absurd hpal (by simp)
      · exact h'

/-- Witness for `c8_usage_errors`: an invalid palette name exits with
code 3 before any file access. -/
theorem c8_usage_errors_witness :
    isExit (cliMain (some "grey") 1024 10240 1 1 true) = true ∧
    exitCodeOf (cliMain (some "grey") 1024 10240 1 1 true) ≠ 0 :=
  c8_usage_errors (some "grey") 1024 10240 1 1 true
    (Or.inl ⟨"grey", rfl, by decide⟩)

/-- The value the `last` variable holds when output pixel `j` of a row
segment is assembled, for a segment that started at destination index
`x` with history value `last`: the first pixel sees the incoming
history, every later pixel `j+1` sees `inbuf[x + j]` (the assignment
`last = inbuf[x]` made at the end of the previous pixel). -/
def prevLast (buf : List Nat) (x last : Nat) : Nat → Nat
  | 0 => last
  | j + 1 => byteAt buf (x + j)

/-- The cursor advances by exactly `pal2chrs pal * zoom` per assembled
(non-black) pixel. -/
theorem assemblePixel_cursor (pal : Palette) (buf : List Nat)
    (zoom last : Nat) (mask : Bool) (xx : Nat) :
    (assemblePixel pal buf zoom last mask xx).2 = xx + pal2chrs pal * zoom := by
  simp [assemblePixel, zoomRun_cursor]
  ring

/-- Characterization of a fully-fed row segment: when the input chunk has
enough bytes for every pixel of the segment, pixel `j` is assembled at
cursor `xx + j * (chrs * zoom)` with history `prevLast buf x last j`. -/
theorem rowGo_char (pal : Palette) (buf : List Nat) (inCount zoom : Nat)
    (mask : Bool) (hz : 0 < zoom) :
    ∀ (fuel x xx last : Nat), xx + fuel * (pal2chrs pal * zoom) ≤ inCount →
    (rowGo pal buf inCount zoom mask fuel x xx last).1 =
      (List.range fuel).map (fun j =>
        (assemblePixel pal buf zoom (prevLast buf x last j) mask
          (xx + j * (pal2chrs pal * zoom))).1) := by
  intro fuel
  induction fuel with
  | zero => intro x xx last _; simp [rowGo]
  | succ fuel ih =>
    intro x xx last h
    have hd : (fuel + 1) * (pal2chrs pal * zoom) =
        pal2chrs pal * zoom + fuel * (pal2chrs pal * zoom) := by ring
    have h1 : pal2chrs pal ≤ pal2chrs pal * zoom :=
      Nat.le_mul_of_pos_right _ hz
    have hcond : ¬ (xx + pal2chrs pal > inCount) := by
      rw [hd] at h
      omega
    simp only [rowGo, if_neg hcond]
    rw [assemblePixel_cursor]
    rw [ih (x + 1) (xx + pal2chrs pal * zoom) (byteAt buf x) (by rw [hd] at h; omega)]
    rw [List.range_succ_eq_map, List.map_cons, List.map_map]
    congr 1
    · simp [prevLast]
    · apply List.map_congr_left
      intro j _
      simp only [Function.comp]
      have harg : xx + pal2chrs pal * zoom + j * (pal2chrs pal * zoom) =
          xx + (j + 1) * (pal2chrs pal * zoom) := by ring
      rw [harg]
      cases j with
      | zero => simp [prevLast]
      | succ j =>
        have : x + 1 + j = x + (j + 1) := by omega
        simp [prevLast, this]

/-- The final cursor of a fully-fed row segment. -/
theorem rowGo_cursor (pal : Palette) (buf : List Nat) (inCount zoom : Nat)
    (mask : Bool) (hz : 0 < zoom) :
    ∀ (fuel x xx last : Nat), xx + fuel * (pal2chrs pal * zoom) ≤ inCount →
    (rowGo pal buf inCount zoom mask fuel x xx last).2.1 =
      xx + fuel * (pal2chrs pal * zoom) := by
  intro fuel
  induction fuel with
  | zero => intro x xx last _; simp [rowGo]
  | succ fuel ih =>
    intro x xx last h
    have hd : (fuel + 1) * (pal2chrs pal * zoom) =
        pal2chrs pal * zoom + fuel * (pal2chrs pal * zoom) := by ring
    have h1 : pal2chrs pal ≤ pal2chrs pal * zoom :=
      Nat.le_mul_of_pos_right _ hz
    have hcond : ¬ (xx + pal2chrs pal > inCount) := by
      rw [hd] at h
      omega
    simp only [rowGo, if_neg hcond]
    rw [assemblePixel_cursor]
    rw [ih (x + 1) (xx + pal2chrs pal * zoom) (byteAt buf x) (by rw [hd] at h; omega)]
    omega

/-- Claim C2, counterexample: grayscale palette, width 2, skip 2, zoom 1,
row chunk [10, 20, 30, 40].  The claim places output pixel 1 at input
offset `1 * bytes_per_pixel * zoom * skip = 2` (byte 30); the code
produces it from offset 1 (byte 20): the skip factor is not consumed
between pixels. -/
theorem c2_counterexample :
    rowPixels .GRAY [10, 20, 30, 40] 4 1 false 2 0 =
      [⟨10, 10, 10⟩, ⟨20, 20, 20⟩] ∧
    (rowPixels .GRAY [10, 20, 30, 40] 4 1 false 2 0).getD 1 ⟨0, 0, 0⟩ ≠
      pix8 30 30 30 := by decide

/-- Claim C2 (amended): the pixel loop never consumes skip bytes between
pixels — output pixel `x` of a row is produced from the input bytes
starting at offset `x * bytes_per_pixel * zoom` (no skip factor), and
the skip factor only enlarges the row's chunk
(`width * chrs * skip * zoom` bytes read per row): the final cursor of a
row is `width * chrs * zoom`, so the trailing
`(skip - 1) * width * chrs * zoom` bytes of the chunk are read into the
buffer but discarded, which skips whole rows of input. -/
theorem c2_pixel_offset :
    ∀ (pal : Palette) (buf : List Nat) (width skip zoom x last0 : Nat) (mask : Bool),
    0 < zoom → 0 < skip → x < width →
    (rowPixels pal buf (width * pal2chrs pal * skip * zoom) zoom mask width last0).getD
        x ⟨0, 0, 0⟩ =
      (assemblePixel pal buf zoom (prevLast buf 0 last0 x) mask
        (x * (pal2chrs pal * zoom))).1 ∧
    (rowGo pal buf (width * pal2chrs pal * skip * zoom) zoom mask width 0 0 last0).2.1 =
      width * (pal2chrs pal * zoom) := by
  intro pal buf width skip zoom x last0 mask hz hk hx
  have hin : 0 + width * (pal2chrs pal * zoom) ≤ width * pal2chrs pal * skip * zoom := by
    have he : width * pal2chrs pal * skip * zoom =
        width * (pal2chrs pal * zoom) * skip := by ring
    rw [he]
    have := Nat.le_mul_of_pos_right (width * (pal2chrs pal * zoom)) hk
    omega
  constructor
  · unfold rowPixels
    rw [rowGo_char pal buf _ zoom mask hz width 0 0 last0 hin]
    rw [List.getD_eq_getElem _ _ (by simpa using hx)]
    simp
  · have := rowGo_cursor pal buf (width * pal2chrs pal * skip * zoom) zoom mask hz
      width 0 0 last0 hin
    omega

/-- Witness for `c2_pixel_offset`: grayscale, width 2, skip 2, zoom 1. -/
theorem c2_pixel_offset_witness :
    (rowPixels .GRAY [10, 20, 30, 40] (2 * pal2chrs .GRAY * 2 * 1) 1 false 2 0).getD
        1 ⟨0, 0, 0⟩ =
      (assemblePixel .GRAY [10, 20, 30, 40] 1 (prevLast [10, 20, 30, 40] 0 0 1) false
        (1 * (pal2chrs .GRAY * 1))).1 ∧
    (rowGo .GRAY [10, 20, 30, 40] (2 * pal2chrs .GRAY * 2 * 1) 1 false 2 0 0 0).2.1 =
      2 * (pal2chrs .GRAY * 1) :=
  c2_pixel_offset .GRAY [10, 20, 30, 40] 2 2 1 1 0 false (by decide) (by decide)
    (by decide)

/-- Once the cursor is too close to the end of the valid input, every
remaining pixel of the row is black: the black branch `continue`s
without advancing `xx`, so the same test keeps failing. -/
theorem rowGo_sticky (pal : Palette) (buf : List Nat) (inCount zoom : Nat)
    (mask : Bool) :
    ∀ (fuel x xx last : Nat), inCount < xx + pal2chrs pal →
    ∀ i, (rowGo pal buf inCount zoom mask fuel x xx last).1.getD i ⟨0, 0, 0⟩ =
      ⟨0, 0, 0⟩ := by
  intro fuel
  induction fuel with
  | zero => intro x xx last _ i; simp [rowGo]
  | succ fuel ih =>
    intro x xx last h i
    simp only [rowGo, if_pos (by omega : xx + pal2chrs pal > inCount)]
    cases i with
    | zero => rfl
    | succ i => exact ih (x + 1) xx last h i

/-- Any pixel whose cursor-would-be start leaves less than one
`bytes_per_pixel` unit of valid input is black (whether or not an
earlier pixel already went black). -/
theorem rowGo_black_after (pal : Palette) (buf : List Nat) (inCount zoom : Nat)
    (mask : Bool) :
    ∀ (fuel x xx last i : Nat),
    inCount < xx + i * (pal2chrs pal * zoom) + pal2chrs pal →
    (rowGo pal buf inCount zoom mask fuel x xx last).1.getD i ⟨0, 0, 0⟩ =
      ⟨0, 0, 0⟩ := by
  intro fuel
  induction fuel with
  | zero => intro x xx last i _; simp [rowGo]
  | succ fuel ih =>
    intro x xx last i h
    by_cases hb : xx + pal2chrs pal > inCount
    · exact rowGo_sticky pal buf inCount zoom mask (fuel + 1) x xx last (by omega) i
    · simp only [rowGo, if_neg hb]
      cases i with
      | zero => omega
      | succ i =>
        show (rowGo pal buf inCount zoom mask fuel (x + 1)
            (assemblePixel pal buf zoom last mask xx).2 (byteAt buf x)).1.getD i
            ⟨0, 0, 0⟩ = ⟨0, 0, 0⟩
        rw [assemblePixel_cursor]
        apply ih
        have he : xx + (i + 1) * (pal2chrs pal * zoom) + pal2chrs pal =
            xx + pal2chrs pal * zoom + i * (pal2chrs pal * zoom) + pal2chrs pal := by
          ring
        omega

/-- Claim C4: for every row whose input chunk yields fewer bytes than a
full row needs, every output pixel beyond the last complete
`bytes_per_pixel`-sized unit — i.e. every pixel `x` whose first unit
index `x * zoom` is at or past the number `in / chrs` of complete units
— is exactly (0,0,0), for all zoom and skip factors and all palettes.
The model has no failure path here: the short read only ever produces
black pixels, never an error. -/
theorem c4_black_fill :
    ∀ (pal : Palette) (buf : List Nat) (inCount zoom : Nat) (mask : Bool)
      (width last0 x : Nat),
    x < width → inCount / pal2chrs pal ≤ x * zoom →
    (rowPixels pal buf inCount zoom mask width last0).getD x ⟨0, 0, 0⟩ = ⟨0, 0, 0⟩ := by
  intro pal buf inCount zoom mask width last0 x _ hdiv
  have hc : 0 < pal2chrs pal := pal2chrs_pos pal
  have h1 : inCount / pal2chrs pal < x * zoom + 1 := by omega
  have h2 : inCount < (x * zoom + 1) * pal2chrs pal :=
    (Nat.div_lt_iff_lt_mul hc).1 h1
  have h3 : (x * zoom + 1) * pal2chrs pal =
      0 + x * (pal2chrs pal * zoom) + pal2chrs pal := by ring
  exact rowGo_black_after pal buf inCount zoom mask width 0 0 last0 x (by omega)

/-- Witness for `c4_black_fill`: an empty input row (zero bytes read) with
the default x86 palette is black at pixel 1 of width 3. -/
theorem c4_black_fill_witness :
    (rowPixels .X86 [] 0 1 true 3 0).getD 1 ⟨0, 0, 0⟩ = ⟨0, 0, 0⟩ :=
  c4_black_fill .X86 [] 0 1 true 3 0 1 (by decide) (by decide)

/-- Claim C6: with masking enabled every channel of every output pixel of
a row is even (the low bit is cleared by `rgb[i] & 0xfe`), for every
palette, zoom, skip (any chunk/valid-count combination) and input; with
masking disabled the rule does not constrain the output: a one-byte
grayscale row yields the odd channel value 1. -/
theorem c6_masking :
    (∀ (pal : Palette) (buf : List Nat) (inCount zoom fuel x xx last i : Nat),
      ((rowGo pal buf inCount zoom true fuel x xx last).1.getD i ⟨0, 0, 0⟩).r % 2 = 0 ∧
      ((rowGo pal buf inCount zoom true fuel x xx last).1.getD i ⟨0, 0, 0⟩).g % 2 = 0 ∧
      ((rowGo pal buf inCount zoom true fuel x xx last).1.getD i ⟨0, 0, 0⟩).b % 2 = 0) ∧
    ((rowPixels .GRAY [1] 1 1 false 1 0).getD 0 ⟨0, 0, 0⟩).r % 2 = 1 := by
  constructor
  · intro pal buf inCount zoom fuel
    induction fuel with
    | zero => intro x xx last i; simp [rowGo]
    | succ fuel ih =>
      intro x xx last i
      simp only [rowGo]
      split_ifs with hb
      · cases i with
        | zero => exact ⟨rfl, rfl, rfl⟩
        | succ i => exact ih (x + 1) xx last i
      · cases i with
        | zero =>
          simp only [List.getD_cons_zero, assemblePixel, if_true, maskPix]
          exact ⟨land254_even _, land254_even _, land254_even _⟩
        | succ i =>
          simpa using
            ih (x + 1) (assemblePixel pal buf zoom last true xx).2 (byteAt buf x) i
  · decide

/-- When every iteration of the zoom loop decodes the same color `X`, the
channel sums are `n * X` and the final iteration's color is `X`. -/
theorem zoomRun_const (pal : Palette) (buf : List Nat) (last : Nat) (X : Pix) :
    ∀ (n xx : Nat),
    (∀ z, z < n → (decodeSample pal buf (xx + z * pal2chrs pal) last).1 = X) →
    (zoomRun pal buf last n xx).1 = (n * X.r, n * X.g, n * X.b) ∧
    (0 < n → (zoomRun pal buf last n xx).2.1 = X) := by
  intro n
  induction n with
  | zero => intro xx _; simp [zoomRun]
  | succ n ih =>
    intro xx hs
    have h0 : (decodeSample pal buf xx last).1 = X := by
      have := hs 0 (by omega)
      simpa using this
    have hrest := ih (xx + pal2chrs pal) (by
      intro z hz
      have := hs (z + 1) (by omega)
      have harg : xx + (z + 1) * pal2chrs pal =
          xx + pal2chrs pal + z * pal2chrs pal := by ring
      rw [harg] at this
      exact this)
    simp only [zoomRun, decodeSample_advance, h0]
    constructor
    · rw [hrest.1]
      refine Prod.ext ?_ (Prod.ext ?_ ?_) <;> simp <;> ring
    · intro _
      cases n with
      | zero => simp [h0]
      | succ n =>
        simp only [Nat.succ_ne_zero, if_false]
        exact hrest.2 (by omega)

/-- Claim C5: for zoom = 1 the (pre-mask) output pixel is the decoded
sample unmodified; for zoom = N > 1, if all N samples of the pixel's
zoom window decode to the same color X, the averaged (pre-mask) output
pixel equals X. -/
theorem c5_zoom_identity :
    ∀ (pal : Palette) (buf : List Nat) (xx last zoom : Nat) (X : Pix),
    (rawPixel pal buf 1 last xx = (decodeSample pal buf xx last).1) ∧
    (1 < zoom →
      (∀ z, z < zoom → (decodeSample pal buf (xx + z * pal2chrs pal) last).1 = X) →
      rawPixel pal buf zoom last xx = X) := by
  intro pal buf xx last zoom X
  constructor
  · simp [rawPixel, zoomRun]
  · intro hz hs
    obtain ⟨hsum, _⟩ := zoomRun_const pal buf last X zoom xx hs
    have hXlt : X.r < 256 ∧ X.g < 256 ∧ X.b < 256 := by
      have h0 := hs 0 (by omega)
      have hb := decodeSample_lt pal buf (xx + 0 * pal2chrs pal) last
      rw [h0] at hb
      exact hb
    unfold rawPixel
    rw [if_pos hz, hsum]
    have hzp : 0 < zoom := by omega
    simp only [Nat.mul_div_cancel_left _ hzp]
    cases X with
    | mk r g b =>
      simp only [pix8]
      simp only at hXlt
      rw [Nat.mod_eq_of_lt hXlt.1, Nat.mod_eq_of_lt hXlt.2.1,
        Nat.mod_eq_of_lt hXlt.2.2]

/-- Witness for `c5_zoom_identity`: grayscale, two identical bytes 7,
zoom 2: the averaged pixel is (7,7,7). -/
theorem c5_zoom_identity_witness :
    rawPixel .GRAY [7, 7] 2 0 0 = ⟨7, 7, 7⟩ :=
  (c5_zoom_identity .GRAY [7, 7] 0 0 2 ⟨7, 7, 7⟩).2 (by decide) (by decide)

/-- Claim C7, counterexample: dvi palette, zoom 2, row chunk
[0, 0, 100, 200].  The code's `last` is updated only once per output
pixel (to `inbuf[x]`), so both samples of pixel 1 use `last = inbuf[0] = 0`,
giving (150, 150, 75); under the claim (previous byte = byte consumed
immediately before, initialized to 0) pixel 1 would be (100, 150, 100). -/
theorem c7_counterexample :
    (rowPixels .DVI [0, 0, 100, 200] 4 2 false 2 0).getD 1 ⟨0, 0, 0⟩ =
      ⟨150, 150, 75⟩ ∧
    dviClaimPixel [0, 0, 100, 200] 2 1 = ⟨100, 150, 100⟩ ∧
    (⟨150, 150, 75⟩ : Pix) ≠ ⟨100, 150, 100⟩ := by decide

/-- Claim C7 (amended): the `last` history byte is updated once per
output pixel, to the chunk byte at the pixel's destination index `x`
(source line `last = inbuf[x]`), not after every consumed sample, and it
is not initialized before the first pixel of a run.  Consequently the
claimed per-sample colors hold exactly in the zoom = 1 case for every
pixel after the first of a row: pixel `x` (0 < x < width, enough input)
is R = |b[x] - b[x-1]|, G = b[x], B = (b[x] + b[x-1]) / 2. -/
theorem c7_dvi_row :
    ∀ (buf : List Nat) (width inCount last0 x : Nat),
    0 < x → x < width → width ≤ inCount →
    (rowPixels .DVI buf inCount 1 false width last0).getD x ⟨0, 0, 0⟩ =
      pix8 (((byteAt buf x : Int) - (byteAt buf (x - 1) : Int)).natAbs)
        (byteAt buf x) ((byteAt buf x + byteAt buf (x - 1)) / 2) := by
  intro buf width inCount last0 x hx hxw hin
  have hchar := rowGo_char .DVI buf inCount 1 false (by decide) width 0 0 last0
    (by simpa [pal2chrs] using hin)
  unfold rowPixels
  rw [hchar, List.getD_eq_getElem _ _ (by simpa using hxw)]
  simp only [List.getElem_map, List.getElem_range]
  cases x with
  | zero => omega
  | succ j =>
    show (assemblePixel .DVI buf 1 (prevLast buf 0 last0 (j + 1)) false _).1 = _
    simp [assemblePixel, rawPixel, zoomRun, decodeSample, prevLast, pal2chrs]

/-- Witness for `c7_dvi_row`: chunk [10, 30, 200], pixel 1. -/
theorem c7_dvi_row_witness :
    (rowPixels .DVI [10, 30, 200] 3 1 false 3 0).getD 1 ⟨0, 0, 0⟩ =
      pix8 (((byteAt [10, 30, 200] 1 : Int) - (byteAt [10, 30, 200] 0 : Int)).natAbs)
        (byteAt [10, 30, 200] 1) ((byteAt [10, 30, 200] 1 + byteAt [10, 30, 200] 0) / 2) :=
  c7_dvi_row [10, 30, 200] 3 3 0 1 (by decide) (by decide) (by decide)

/-- Per-channel sums over the zoom window are bounded by 255 per sample. -/
theorem zoomRun_sum_le (pal : Palette) (buf : List Nat) (last : Nat) :
    ∀ (n xx : Nat),
    (zoomRun pal buf last n xx).1.1 ≤ 255 * n ∧
    (zoomRun pal buf last n xx).1.2.1 ≤ 255 * n ∧
    (zoomRun pal buf last n xx).1.2.2 ≤ 255 * n := by
  intro n
  induction n with
  | zero => intro xx; simp [zoomRun]
  | succ n ih =>
    intro xx
    have hd := decodeSample_lt pal buf xx last
    have hr := ih ((decodeSample pal buf xx last).2 + 1)
    simp only [zoomRun]
    have he : 255 * (n + 1) = 255 * n + 255 := by ring
    refine ⟨?_, ?_, ?_⟩ <;> simp only [he] <;> omega

/-- Claim C9: for every palette, zoom window and input, each per-pixel
channel sum is at most `255 * zoom`; hence the zoom-averaged channel
value (integer division by zoom) lies in [0, 255], and for every
realizable zoom factor (an `int`, at most 2^31) the sum stays far below
2^64, so the `unsigned long` accumulator cannot overflow. -/
theorem c9_zoom_sum_bound :
    ∀ (pal : Palette) (buf : List Nat) (last xx zoom : Nat),
    ((zoomRun pal buf last zoom xx).1.1 ≤ 255 * zoom ∧
     (zoomRun pal buf last zoom xx).1.2.1 ≤ 255 * zoom ∧
     (zoomRun pal buf last zoom xx).1.2.2 ≤ 255 * zoom) ∧
    (0 < zoom →
      (zoomRun pal buf last zoom xx).1.1 / zoom ≤ 255 ∧
      (zoomRun pal buf last zoom xx).1.2.1 / zoom ≤ 255 ∧
      (zoomRun pal buf last zoom xx).1.2.2 / zoom ≤ 255) ∧
    (zoom ≤ 2 ^ 31 →
      (zoomRun pal buf last zoom xx).1.1 < 2 ^ 64 ∧
      (zoomRun pal buf last zoom xx).1.2.1 < 2 ^ 64 ∧
      (zoomRun pal buf last zoom xx).1.2.2 < 2 ^ 64) := by
  intro pal buf last xx zoom
  have hs := zoomRun_sum_le pal buf last zoom xx
  refine ⟨hs, ?_, ?_⟩
  · intro hz
    have hdiv : ∀ a : Nat, a ≤ 255 * zoom → a / zoom ≤ 255 := by
      intro a ha
      calc a / zoom ≤ 255 * zoom / zoom := Nat.div_le_div_right ha
        _ = 255 := Nat.mul_div_cancel 255 hz
    exact ⟨hdiv _ hs.1, hdiv _ hs.2.1, hdiv _ hs.2.2⟩
  · intro hz
    have hbig : 255 * zoom < 2 ^ 64 := by
      have : 255 * zoom ≤ 255 * 2 ^ 31 := Nat.mul_le_mul_left 255 hz
      omega
    exact ⟨by omega, by omega, by omega⟩

/-- Witness for `c9_zoom_sum_bound`: grayscale, one byte 200, zoom 1. -/
theorem c9_zoom_sum_bound_witness :
    (zoomRun .GRAY [200] 0 1 0).1.1 / 1 ≤ 255 ∧
    (zoomRun .GRAY [200] 0 1 0).1.1 < 2 ^ 64 :=
  ⟨((c9_zoom_sum_bound .GRAY [200] 0 0 1).2.1 (by decide)).1,
   ((c9_zoom_sum_bound .GRAY [200] 0 0 1).2.2 (by decide)).1⟩

end Dump2png
